import Mathlib

set_option maxRecDepth 40000

/-!
Shallow embedding of the Connections-solver script (`connections/__main__.py`)
and proofs about its guess/verify/retry control loop.

Items are opaque string tokens.  The LLM oracle is modelled as a function from
the call index to a structured response (total for the main loop theorems, and
`Option`-valued where parse failures matter).  The pseudo-random shuffle only
permutes the word list handed to the oracle, so an arbitrary oracle function
absorbs it; the verification state itself never depends on the shuffle.
-/

abbrev Item := String

/-- Pydantic model `ConnectionsGuess`: one candidate group with its rationale. -/
structure ConnectionsGuess where
  items : List Item
  reason : String
deriving DecidableEq

/-- Pydantic model `ConnectionsGuesses`: the structured oracle response. -/
structure ConnectionsGuesses where
  groups : List ConnectionsGuess
deriving DecidableEq

/-- The mutable state owned by `run_connections`: `remaining_words`,
`correct_sets` and `errors`, with the source's names. -/
structure PState where
  remaining_words : Finset Item
  correct_sets : List (Finset Item)
  errors : List (List Item)
deriving DecidableEq

/-- `answer_sheet = set(frozenset(a) for a in correct_answers)`. -/
def answer_sheet (correct_answers : List (List Item)) : Finset (Finset Item) :=
  (correct_answers.map List.toFinset).toFinset

/-- `remaining_words = set.union(*(set(a) for a in correct_answers))`:
the union of all the answer groups' item sets. -/
def all_words (correct_answers : List (List Item)) : Finset Item :=
  (correct_answers.map List.toFinset).foldr (fun a b => a ∪ b) ∅

/-- The loop-entry state of `run_connections`. -/
def initState (correct_answers : List (List Item)) : PState :=
  { remaining_words := all_words correct_answers, correct_sets := [], errors := [] }

/-- The `while` guard: `remaining_words and len(errors) < 4`. -/
def loopCond (s : PState) : Prop :=
  s.remaining_words.Nonempty ∧ s.errors.length < 4

instance (s : PState) : Decidable (loopCond s) :=
  inferInstanceAs (Decidable (s.remaining_words.Nonempty ∧ s.errors.length < 4))

/-- The `if set(items) in answer_sheet` branch of the loop body:
`remaining_words -= set(items); correct_sets.append(set(items))`. -/
def confirmUpdate (group : ConnectionsGuess) (s : PState) : PState :=
  { s with remaining_words := s.remaining_words \ group.items.toFinset,
           correct_sets := s.correct_sets ++ [group.items.toFinset] }

/-- The `else` branch of the loop body: `errors.append(items)` (followed by
`break`). -/
def rejectUpdate (group : ConnectionsGuess) (s : PState) : PState :=
  { s with errors := s.errors ++ [group.items] }

/-- The `for group in groups` loop of `run_connections`: confirm matching
candidates in order; on the first non-matching candidate record it in
`errors` and `break`. -/
def processGroups (ans : Finset (Finset Item)) : List ConnectionsGuess → PState → PState
  | [], s => s
  | group :: rest, s =>
    if group.items.toFinset ∈ ans then
      processGroups ans rest (confirmUpdate group s)
    else
      rejectUpdate group s

/-- The loop-head state of `run_connections` before the k-th oracle call,
for a total oracle (indexed by call number).  When the guard fails the state
is frozen: no further call is made. -/
def states (correct_answers : List (List Item)) (oracle : Nat → ConnectionsGuesses) :
    Nat → PState
  | 0 => initState correct_answers
  | k + 1 =>
    if loopCond (states correct_answers oracle k) then
      processGroups (answer_sheet correct_answers) (oracle k).groups
        (states correct_answers oracle k)
    else states correct_answers oracle k

/-- Outcome of a run under a fallible oracle: either the loop finished with a
final state, or a `call_llm` parse failure propagated and aborted the run
(the state is lost with the exception, as in the script). -/
inductive RunResult where
  | finished : PState → RunResult
  | aborted : RunResult
deriving DecidableEq

/-- Fuelled interpreter of the `while` loop of `run_connections` under a
fallible oracle (`none` models `json.loads`, or pydantic validation, raising
inside `call_llm`).  Returns `none` when the fuel runs out with the loop
still running. -/
def runFromE (ans : Finset (Finset Item)) (oracle : Nat → Option ConnectionsGuesses) :
    Nat → Nat → PState → Option RunResult
  | 0, _, s => if loopCond s then none else some (RunResult.finished s)
  | fuel + 1, k, s =>
    if loopCond s then
      match oracle k with
      | none => some RunResult.aborted
      | some r => runFromE ans oracle fuel (k + 1) (processGroups ans r.groups s)
    else some (RunResult.finished s)

/-- The data printed after the loop: `if not remaining_words` the script
prints only the banner and `4 - len(errors)`; otherwise it prints
`correct_sets` and `remaining_words`. -/
inductive Report where
  | solved (guesses_remaining : Nat) : Report
  | failed (correct_sets : List (Finset Item)) (remaining_words : Finset Item) : Report
deriving DecidableEq

/-- The final `print` block of `run_connections` as structured data. -/
def finalReport (s : PState) : Report :=
  if s.remaining_words = ∅ then Report.solved (4 - s.errors.length)
  else Report.failed s.correct_sets s.remaining_words

/-- The group data that flows into the final `print` calls of each branch:
the solved branch prints none, the failed branch prints `correct_sets`. -/
def Report.reportedGroups : Report → List (Finset Item)
  | Report.solved _ => []
  | Report.failed cs _ => cs

/-- `format_list`: comma-join with each item wrapped in double quotes. -/
def format_list (lst : List Item) : String :=
  String.intercalate "," (lst.map (fun item => "\"" ++ item ++ "\""))

/-- `format_errors`: the feedback block built from previously wrong guesses. -/
def format_errors (errors : List (List Item)) : String :=
  "You previously guessed \n" ++ String.intercalate "\n" (errors.map format_list) ++
    "\n" ++ "Those answers are not correct. Do not repeat them.\n"

/-- The text of `PROMPT` before the `%(items)s` placeholder. -/
def promptPart1 : String :=
  "\nFind groups of four items that share something in common.\nCategory Examples\n\nFISH: Bass, Flounder, Salmon, Trout\nFIRE ___:\nAnt, Drill, Island, Opal\nCategories will always be more specific than\n\"5-LETTER-WORDS,\" \"NAMES\" or \"VERBS.\"\n\nEach puzzle has exactly one solution. Every item fits in\nexactly one category.\n\nWatch out for words that seem to belong to multiple categories!\n\nOrder your answers in terms of your confidence level, high\nconfidence first.\n\nHere are the items:\n\n"

/-- The text of `PROMPT` between `%(items)s` and `%(error_str)s`. -/
def promptPart2 : String := "\n\n"

/-- The text of `PROMPT` after the `%(error_str)s` placeholder. -/
def promptPart3 : String :=
  "\nReturn your guess as ONLY JSON like this:\n\n\x7b\"groups\":\n    [\n        \x7b\"items\": [\"item1a\", \"item2a\", \"item3a\", \"item4a\"],\n            \"reason\": \"...\"\x7d,\n            \x7b\"items\": [\"item2a\", \"item2b\", \"item3b\", \"item4b\"],\n            \"reason\": \"...\"\x7d,\n    ]\x7d\n\nNo other text.\n"

/-- `error_str = format_errors(error) if error else ""` in `call_llm`. -/
def error_block (error : List (List Item)) : String :=
  if error.isEmpty then "" else format_errors error

/-- The prompt rendered by `call_llm`: the template with `%(items)s` replaced
by `",".join(items)` and `%(error_str)s` replaced by `error_str`. -/
def build_prompt (items : List Item) (error : List (List Item)) : String :=
  promptPart1 ++ String.intercalate "," items ++ promptPart2 ++ error_block error ++ promptPart3

/-- Boolean contiguous-substring check on character lists, used to state facts
about the rendered prompt in a form a kernel evaluation can settle. -/
def containsSub (pat : List Char) : List Char → Bool
  | [] => pat.isEmpty
  | c :: t => pat.isPrefixOf (c :: t) || containsSub pat t

/-- The union of a list of item sets, as accumulated in `correct_sets`. -/
def union_list (l : List (Finset Item)) : Finset Item :=
  l.foldr (fun a b => a ∪ b) ∅

/-- The termination measure of the loop: remaining cardinality plus the
unused error budget. -/
def muMeasure (ca : List (List Item)) (oracle : Nat → ConnectionsGuesses) (k : Nat) : Nat :=
  (states ca oracle k).remaining_words.card + (4 - (states ca oracle k).errors.length)

/- Concrete sixteen-item puzzle used as witness data. -/

def gA : List Item := ["a", "b", "c", "d"]

def gB : List Item := ["e", "f", "g", "h"]

def gC : List Item := ["i", "j", "k", "l"]

def gD : List Item := ["m", "n", "o", "p"]

def caEx : List (List Item) := [gA, gB, gC, gD]

def mkGuess (l : List Item) : ConnectionsGuess := { items := l, reason := "r" }

/-- Oracle that answers every call with the four correct groups. -/
def oSolve : Nat → ConnectionsGuesses := fun _ =>
  { groups := [mkGuess gA, mkGuess gB, mkGuess gC, mkGuess gD] }

/-- Oracle that answers every call with an empty list of candidate groups. -/
def oEmpty : Nat → ConnectionsGuesses := fun _ => { groups := [] }

/-- Oracle that proposes the same correct group on every call. -/
def oDup : Nat → ConnectionsGuesses := fun _ => { groups := [mkGuess gA] }

/-- Oracle that proposes the same wrong group on every call. -/
def oWrong : Nat → ConnectionsGuesses := fun _ => { groups := [mkGuess ["a", "e", "i", "m"]] }

/-- Fallible oracle whose every response fails to parse. -/
def oFail : Nat → Option ConnectionsGuesses := fun _ => none

/-! Helper lemmas about the loop body and the loop-head trajectory. -/

theorem containsSub_iff (pat : List Char) : ∀ t, containsSub pat t = true ↔ pat <:+: t := by
  intro t
  induction t with
  | nil => simp [containsSub, List.isEmpty_iff, List.infix_nil]
  | cons c t ih =>
    simp [containsSub, List.infix_cons_iff, ih, List.isPrefixOf_iff_prefix]

theorem processGroups_errors_cases (ans : Finset (Finset Item)) (gs : List ConnectionsGuess) :
    ∀ s, (processGroups ans gs s).errors = s.errors ∨
      ∃ g : ConnectionsGuess, (processGroups ans gs s).errors = s.errors ++ [g.items] := by
  induction gs with
  | nil => intro s; exact Or.inl rfl
  | cons g rest ih =>
    intro s
    by_cases hg : g.items.toFinset ∈ ans
    · simp only [processGroups, if_pos hg]
      rcases ih (confirmUpdate g s) with h | ⟨g', h⟩
      · exact Or.inl h
      · exact Or.inr ⟨g', h⟩
    · simp only [processGroups, if_neg hg]
      exact Or.inr ⟨g, rfl⟩

theorem processGroups_errors_length (ans : Finset (Finset Item)) (gs : List ConnectionsGuess)
    (s : PState) :
    s.errors.length ≤ (processGroups ans gs s).errors.length ∧
    (processGroups ans gs s).errors.length ≤ s.errors.length + 1 := by
  rcases processGroups_errors_cases ans gs s with h | ⟨g, h⟩ <;> simp [h]

theorem processGroups_remaining_subset (ans : Finset (Finset Item)) (gs : List ConnectionsGuess) :
    ∀ s, (processGroups ans gs s).remaining_words ⊆ s.remaining_words := by
  induction gs with
  | nil => intro s; exact subset_rfl
  | cons g rest ih =>
    intro s
    by_cases hg : g.items.toFinset ∈ ans
    · simp only [processGroups, if_pos hg]
      exact (ih (confirmUpdate g s)).trans Finset.sdiff_subset
    · simp only [processGroups, if_neg hg]
      exact subset_rfl

theorem errors_le_four (ca : List (List Item)) (oracle : Nat → ConnectionsGuesses) :
    ∀ k, (states ca oracle k).errors.length ≤ 4 := by
  intro k
  induction k with
  | zero => simp [states, initState]
  | succ n ih =>
    simp only [states]
    by_cases h : loopCond (states ca oracle n)
    · rw [if_pos h]
      have h2 := (processGroups_errors_length (answer_sheet ca) ((oracle n).groups)
        (states ca oracle n)).2
      have hl := h.2
      omega
    · rw [if_neg h]
      exact ih

theorem states_stable (ca : List (List Item)) (oracle : Nat → ConnectionsGuesses) {n : Nat}
    (h : ¬ loopCond (states ca oracle n)) :
    ∀ j, states ca oracle (n + j) = states ca oracle n := by
  intro j
  induction j with
  | zero => rfl
  | succ m ih =>
    have e : n + (m + 1) = (n + m) + 1 := rfl
    rw [e]
    simp only [states]
    rw [ih, if_neg h]

theorem union_list_concat (l : List (Finset Item)) (x : Finset Item) :
    union_list (l ++ [x]) = union_list l ∪ x := by
  induction l with
  | nil => simp [union_list]
  | cons a t ih =>
    show a ∪ union_list (t ++ [x]) = (a ∪ union_list t) ∪ x
    rw [ih, Finset.union_assoc]

theorem processGroups_invariant (ans : Finset (Finset Item)) (U : Finset Item)
    (gs : List ConnectionsGuess) :
    ∀ s, s.remaining_words = U \ union_list s.correct_sets →
      (processGroups ans gs s).remaining_words =
        U \ union_list (processGroups ans gs s).correct_sets := by
  induction gs with
  | nil => intro s h; exact h
  | cons g rest ih =>
    intro s h
    by_cases hg : g.items.toFinset ∈ ans
    · simp only [processGroups, if_pos hg]
      apply ih
      show s.remaining_words \ g.items.toFinset =
        U \ union_list (s.correct_sets ++ [g.items.toFinset])
      rw [h, union_list_concat]
      ext a
      simp only [Finset.mem_sdiff, Finset.mem_union]
      tauto
    · simp only [processGroups, if_neg hg]
      exact h

/-! Claim theorems. -/

/-- C1: within one oracle response, candidates are processed in order and
processing stops at the first candidate whose item set matches no answer
group: that candidate alone is appended to `errors`, the candidates after it
(matching or not) leave `remaining_words`, `correct_sets` and `errors`
untouched, and the matching candidates before it added no error. -/
theorem first_error_stops_response (ans : Finset (Finset Item))
    (pre : List ConnectionsGuess) (g : ConnectionsGuess) (post : List ConnectionsGuess)
    (s : PState)
    (hpre : ∀ p ∈ pre, p.items.toFinset ∈ ans)
    (hg : g.items.toFinset ∉ ans) :
    processGroups ans (pre ++ g :: post) s = rejectUpdate g (processGroups ans pre s) ∧
    (processGroups ans pre s).errors = s.errors := by
  induction pre generalizing s with
  | nil =>
    refine ⟨?_, rfl⟩
    show processGroups ans (g :: post) s = rejectUpdate g s
    simp [processGroups, hg]
  | cons p rest ih =>
    have hp : p.items.toFinset ∈ ans := hpre p (List.mem_cons_self p rest)
    have hrest : ∀ q ∈ rest, q.items.toFinset ∈ ans := fun q hq =>
      hpre q (List.mem_cons_of_mem p hq)
    have step1 : processGroups ans ((p :: rest) ++ g :: post) s =
        processGroups ans (rest ++ g :: post) (confirmUpdate p s) := by
      simp [processGroups, hp]
    have step2 : processGroups ans (p :: rest) s =
        processGroups ans rest (confirmUpdate p s) := by
      simp [processGroups, hp]
    rcases ih (confirmUpdate p s) hrest with ⟨h1, h2⟩
    exact ⟨by rw [step1, step2, h1], by rw [step2, h2]; rfl⟩

/-- C1 witness: in a response consisting of one correct group, then the wrong
group, then another correct group, the wrong group is recorded and the trailing
correct group is discarded. -/
theorem first_error_stops_response_witness :
    (∀ p ∈ [mkGuess gA], p.items.toFinset ∈ answer_sheet caEx) ∧
    (mkGuess ["a", "e", "i", "m"]).items.toFinset ∉ answer_sheet caEx ∧
    (processGroups (answer_sheet caEx)
        ([mkGuess gA] ++ mkGuess ["a", "e", "i", "m"] :: [mkGuess gB]) (initState caEx) =
      rejectUpdate (mkGuess ["a", "e", "i", "m"])
        (processGroups (answer_sheet caEx) [mkGuess gA] (initState caEx)) ∧
    (processGroups (answer_sheet caEx) [mkGuess gA] (initState caEx)).errors =
      (initState caEx).errors) :=
  ⟨by decide, by decide,
    first_error_stops_response (answer_sheet caEx) [mkGuess gA]
      (mkGuess ["a", "e", "i", "m"]) [mkGuess gB] (initState caEx) (by decide) (by decide)⟩

/-- C2: the head candidate of a response is confirmed (its items are removed
from `remaining_words` and its set appended to `correct_sets`) iff its item
set is equal, as a set, to some group of the answer sheet; when it equals no
answer group — in particular on any partial overlap — it is rejected. -/
theorem confirmed_iff_exact_set_match (ans : Finset (Finset Item)) (g : ConnectionsGuess)
    (rest : List ConnectionsGuess) (s : PState) :
    ((∃ a ∈ ans, g.items.toFinset = a) →
      processGroups ans (g :: rest) s = processGroups ans rest (confirmUpdate g s)) ∧
    ((∀ a ∈ ans, g.items.toFinset ≠ a) →
      processGroups ans (g :: rest) s = rejectUpdate g s) := by
  constructor
  · rintro ⟨a, ha, hea⟩
    have hm : g.items.toFinset ∈ ans := hea ▸ ha
    simp [processGroups, hm]
  · intro h
    have hm : g.items.toFinset ∉ ans := fun hmem => h _ hmem rfl
    simp [processGroups, hm]

/-- C2 witness: a correct group (in scrambled order) is confirmed; a group
overlapping three answer groups is rejected. -/
theorem confirmed_iff_exact_set_match_witness :
    (∃ a ∈ answer_sheet caEx, (mkGuess ["d", "c", "b", "a"]).items.toFinset = a) ∧
    (processGroups (answer_sheet caEx) [mkGuess ["d", "c", "b", "a"]] (initState caEx) =
      processGroups (answer_sheet caEx) [] (confirmUpdate (mkGuess ["d", "c", "b", "a"]) (initState caEx))) ∧
    (∀ a ∈ answer_sheet caEx, (mkGuess ["a", "b", "c", "e"]).items.toFinset ≠ a) ∧
    (processGroups (answer_sheet caEx) [mkGuess ["a", "b", "c", "e"]] (initState caEx) =
      rejectUpdate (mkGuess ["a", "b", "c", "e"]) (initState caEx)) :=
  ⟨by decide,
    (confirmed_iff_exact_set_match (answer_sheet caEx) (mkGuess ["d", "c", "b", "a"]) []
      (initState caEx)).1 (by decide),
    by decide,
    (confirmed_iff_exact_set_match (answer_sheet caEx) (mkGuess ["a", "b", "c", "e"]) []
      (initState caEx)).2 (by decide)⟩

/-- C3: at every loop-head state `errors` holds at most 4 rejected guesses,
and once it holds 4 the guard fails, the state never changes again and no
further oracle response is processed. -/
theorem error_budget_invariant (ca : List (List Item)) (oracle : Nat → ConnectionsGuesses) :
    (∀ k, (states ca oracle k).errors.length ≤ 4) ∧
    (∀ k j, (states ca oracle k).errors.length = 4 →
      states ca oracle (k + j) = states ca oracle k) := by
  refine ⟨errors_le_four ca oracle, ?_⟩
  intro k j h4
  apply states_stable
  intro hl
  have := hl.2
  omega

/-- C3 witness: four wrong guesses exhaust the budget; afterwards the run is
frozen (here three more steps change nothing). -/
theorem error_budget_invariant_witness :
    (states caEx oWrong 4).errors.length = 4 ∧
    states caEx oWrong (4 + 3) = states caEx oWrong 4 :=
  ⟨by decide, (error_budget_invariant caEx oWrong).2 4 3 (by decide)⟩

/-- C4 counterexample: under the oracle that always answers with an empty
list of candidate groups, no loop-head state ever falsifies the guard — the
run never reaches a terminal state, so it does not terminate for every total
oracle. -/
theorem empty_response_oracle_loops_forever :
    ¬ ∃ N, ¬ loopCond (states caEx oEmpty N) := by
  have hstate : ∀ N, states caEx oEmpty N = initState caEx := by
    intro N
    induction N with
    | zero => rfl
    | succ n ih =>
      simp only [states]
      rw [ih]
      rw [if_pos (by decide : loopCond (initState caEx))]
      rfl
  rintro ⟨N, hN⟩
  rw [hstate N] at hN
  exact hN (by decide)

/-- C4 amended: if every processed oracle response makes progress — it either
records a rejected guess or strictly shrinks `remaining_words` — then the run
reaches, after finitely many oracle calls, a terminal loop-head state:
either SOLVED (`remaining_words` empty) or EXHAUSTED (`remaining_words`
non-empty with exactly 4 rejected guesses). -/
theorem run_terminates_of_progress (ca : List (List Item)) (oracle : Nat → ConnectionsGuesses)
    (hprog : ∀ k, loopCond (states ca oracle k) →
      (states ca oracle (k + 1)).errors.length = (states ca oracle k).errors.length + 1 ∨
      (states ca oracle (k + 1)).remaining_words ⊂ (states ca oracle k).remaining_words) :
    ∃ N, ¬ loopCond (states ca oracle N) ∧
      ((states ca oracle N).remaining_words = ∅ ∨
        ((states ca oracle N).remaining_words ≠ ∅ ∧
          (states ca oracle N).errors.length = 4)) := by
  have hdec : ∀ k, loopCond (states ca oracle k) →
      muMeasure ca oracle (k + 1) < muMeasure ca oracle k := by
    intro k hk
    have hle4 := errors_le_four ca oracle k
    rcases hprog k hk with h | h
    · have hsub : (states ca oracle (k + 1)).remaining_words ⊆
          (states ca oracle k).remaining_words := by
        simp only [states, if_pos hk]
        exact processGroups_remaining_subset _ _ _
      have hcard := Finset.card_le_card hsub
      have hl4 := hk.2
      unfold muMeasure
      omega
    · have hcard := Finset.card_lt_card h
      have hmono : (states ca oracle k).errors.length ≤
          (states ca oracle (k + 1)).errors.length := by
        simp only [states, if_pos hk]
        exact (processGroups_errors_length _ _ _).1
      unfold muMeasure
      omega
  have hterm : ∃ N, ¬ loopCond (states ca oracle N) := by
    by_contra hall
    push_neg at hall
    have hbound : ∀ k, muMeasure ca oracle k + k ≤ muMeasure ca oracle 0 := by
      intro k
      induction k with
      | zero => omega
      | succ n ih =>
        have := hdec n (hall n)
        omega
    have := hbound (muMeasure ca oracle 0 + 1)
    omega
  rcases hterm with ⟨N, hN⟩
  refine ⟨N, hN, ?_⟩
  by_cases hre : (states ca oracle N).remaining_words = ∅
  · exact Or.inl hre
  · have hne : (states ca oracle N).remaining_words.Nonempty :=
      Finset.nonempty_iff_ne_empty.mpr hre
    have hle := errors_le_four ca oracle N
    have hlt : ¬ (states ca oracle N).errors.length < 4 := fun hlt => hN ⟨hne, hlt⟩
    exact Or.inr ⟨hre, by omega⟩

/-- C4 amended witness: the always-correct oracle makes progress on its one
processed response and the run terminates SOLVED. -/
theorem run_terminates_of_progress_witness :
    ∃ N, ¬ loopCond (states caEx oSolve N) ∧
      ((states caEx oSolve N).remaining_words = ∅ ∨
        ((states caEx oSolve N).remaining_words ≠ ∅ ∧
          (states caEx oSolve N).errors.length = 4)) :=
  run_terminates_of_progress caEx oSolve (fun k => by
    match k with
    | 0 => exact fun _ => Or.inr (by decide)
    | j + 1 =>
      intro hk
      exfalso
      have h1 : ¬ loopCond (states caEx oSolve 1) := by decide
      have h2 := states_stable caEx oSolve h1 j
      rw [Nat.add_comm 1 j] at h2
      rw [h2] at hk
      exact h1 hk)

/-- C5 counterexample: under the oracle that re-proposes the already-confirmed
group `gA`, the second iteration is a confirmation event (`correct_sets` grows
by one, no rejection) in which `remaining_words` does not change at all —
it does not decrease by the four items of the confirmed group. -/
theorem duplicate_confirmation_no_shrink :
    (states caEx oDup 2).correct_sets.length = (states caEx oDup 1).correct_sets.length + 1 ∧
    (states caEx oDup 2).errors = (states caEx oDup 1).errors ∧
    (states caEx oDup 2).remaining_words = (states caEx oDup 1).remaining_words ∧
    (states caEx oDup 1).remaining_words.card = 12 ∧
    (mkGuess gA).items.toFinset.card = 4 := by decide

/-- C5 amended: a confirmation event whose group's items are all still in
`remaining_words` (and non-empty) shrinks `remaining_words` by exactly the
group's item count — strictly — and appends exactly one entry to
`correct_sets`; without that freshness condition (a re-confirmed group)
`remaining_words` can stay unchanged. -/
theorem confirm_shrinks_by_group_card (ans : Finset (Finset Item)) (g : ConnectionsGuess)
    (rest : List ConnectionsGuess) (s : PState)
    (hmem : g.items.toFinset ∈ ans)
    (hsub : g.items.toFinset ⊆ s.remaining_words)
    (hne : g.items ≠ []) :
    processGroups ans (g :: rest) s = processGroups ans rest (confirmUpdate g s) ∧
    (confirmUpdate g s).remaining_words.card + g.items.toFinset.card =
      s.remaining_words.card ∧
    (confirmUpdate g s).remaining_words.card < s.remaining_words.card ∧
    (confirmUpdate g s).correct_sets.length = s.correct_sets.length + 1 := by
  have hstep : processGroups ans (g :: rest) s = processGroups ans rest (confirmUpdate g s) := by
    simp [processGroups, hmem]
  have hcard : (s.remaining_words \ g.items.toFinset).card + g.items.toFinset.card =
      s.remaining_words.card := Finset.card_sdiff_add_card_eq_card hsub
  have hpos : 0 < g.items.toFinset.card := by
    have hnonempty : g.items.toFinset.Nonempty := by
      cases h : g.items with
      | nil => exact absurd h hne
      | cons a t => exact ⟨a, by simp [h]⟩
    exact Finset.card_pos.mpr hnonempty
  have hrem : (confirmUpdate g s).remaining_words.card =
      (s.remaining_words \ g.items.toFinset).card := rfl
  refine ⟨hstep, by rw [hrem]; exact hcard, by omega, by simp [confirmUpdate]⟩

/-- C5 amended witness: the first confirmation of `gA` at the initial state
shrinks the sixteen remaining items by four. -/
theorem confirm_shrinks_by_group_card_witness :
    (mkGuess gA).items.toFinset ∈ answer_sheet caEx ∧
    (mkGuess gA).items.toFinset ⊆ (initState caEx).remaining_words ∧
    (mkGuess gA).items ≠ [] ∧
    (processGroups (answer_sheet caEx) [mkGuess gA] (initState caEx) =
        processGroups (answer_sheet caEx) [] (confirmUpdate (mkGuess gA) (initState caEx)) ∧
      (confirmUpdate (mkGuess gA) (initState caEx)).remaining_words.card +
          (mkGuess gA).items.toFinset.card = (initState caEx).remaining_words.card ∧
      (confirmUpdate (mkGuess gA) (initState caEx)).remaining_words.card <
          (initState caEx).remaining_words.card ∧
      (confirmUpdate (mkGuess gA) (initState caEx)).correct_sets.length =
          (initState caEx).correct_sets.length + 1) :=
  ⟨by decide, by decide, by decide,
    confirm_shrinks_by_group_card (answer_sheet caEx) (mkGuess gA) [] (initState caEx)
      (by decide) (by decide) (by decide)⟩

/-- C6: the answer sheet used for matching is a fixed parameter of the whole
run, so a group confirmed earlier still matches when proposed again: it is
accepted a second time, a duplicate entry is appended to `correct_sets`,
`remaining_words` is unchanged (its items are already gone), and no rejection
is recorded. -/
theorem repeat_confirmed_group_accepted_again (ans : Finset (Finset Item))
    (g : ConnectionsGuess) (rest : List ConnectionsGuess) (s : PState)
    (hmem : g.items.toFinset ∈ ans)
    (hdisj : Disjoint g.items.toFinset s.remaining_words) :
    processGroups ans (g :: rest) s = processGroups ans rest (confirmUpdate g s) ∧
    (confirmUpdate g s).remaining_words = s.remaining_words ∧
    (confirmUpdate g s).correct_sets = s.correct_sets ++ [g.items.toFinset] ∧
    (confirmUpdate g s).errors = s.errors := by
  refine ⟨by simp [processGroups, hmem], ?_, rfl, rfl⟩
  show s.remaining_words \ g.items.toFinset = s.remaining_words
  exact sdiff_eq_self_iff_disjoint.mpr hdisj

/-- C6 witness: at the reachable state after `gA` was confirmed, `gA` proposed
again is confirmed again without touching `remaining_words` or `errors`. -/
theorem repeat_confirmed_group_accepted_again_witness :
    (mkGuess gA).items.toFinset ∈ answer_sheet caEx ∧
    Disjoint (mkGuess gA).items.toFinset (states caEx oDup 1).remaining_words ∧
    (processGroups (answer_sheet caEx) [mkGuess gA] (states caEx oDup 1) =
        processGroups (answer_sheet caEx) []
          (confirmUpdate (mkGuess gA) (states caEx oDup 1)) ∧
      (confirmUpdate (mkGuess gA) (states caEx oDup 1)).remaining_words =
        (states caEx oDup 1).remaining_words ∧
      (confirmUpdate (mkGuess gA) (states caEx oDup 1)).correct_sets =
        (states caEx oDup 1).correct_sets ++ [(mkGuess gA).items.toFinset] ∧
      (confirmUpdate (mkGuess gA) (states caEx oDup 1)).errors =
        (states caEx oDup 1).errors) :=
  ⟨by decide, by decide,
    repeat_confirmed_group_accepted_again (answer_sheet caEx) (mkGuess gA) []
      (states caEx oDup 1) (by decide) (by decide)⟩

/-- C7: when the response of the oracle call made at a running state fails to
parse, the run aborts at once: the result is the abort outcome, no state
transition is applied, and no later oracle response is consulted. -/
theorem parse_failure_aborts_run (ans : Finset (Finset Item))
    (oracle : Nat → Option ConnectionsGuesses) (fuel k : Nat) (s : PState)
    (hc : loopCond s) (ho : oracle k = none) :
    runFromE ans oracle (fuel + 1) k s = some RunResult.aborted := by
  simp [runFromE, hc, ho]

/-- C7 witness: at the initial state of the concrete puzzle, an unparseable
first response aborts the run. -/
theorem parse_failure_aborts_run_witness :
    loopCond (initState caEx) ∧ oFail 0 = none ∧
    runFromE (answer_sheet caEx) oFail 6 0 (initState caEx) = some RunResult.aborted :=
  ⟨by decide, rfl,
    parse_failure_aborts_run (answer_sheet caEx) oFail 5 0 (initState caEx) (by decide) rfl⟩

/-- C8 counterexample: for remaining items `a, b` the rendered prompt does not
contain the quoted comma-join (the string consisting of quote, a, quote,
comma, quote, b, quote); `",".join(items)` inserts the items unquoted and
`format_list` is applied only to rejected guesses. -/
theorem prompt_items_not_quoted :
    ¬ List.IsInfix (format_list ["a", "b"]).data (build_prompt ["a", "b"] []).data := by
  intro h
  have hb : containsSub (format_list ["a", "b"]).data (build_prompt ["a", "b"] []).data
      = false := by decide
  have ht := (containsSub_iff (format_list ["a", "b"]).data
    (build_prompt ["a", "b"] []).data).mpr h
  rw [hb] at ht
  exact Bool.false_ne_true ht

/-- C8 amended: every rendered prompt contains the remaining items
comma-joined, each item inserted verbatim and unquoted; the quoted
comma-joined form is used only for the rejected guesses in the feedback
block. -/
theorem prompt_contains_joined_items (items : List Item) (error : List (List Item)) :
    List.IsInfix (String.intercalate "," items).data (build_prompt items error).data := by
  refine ⟨promptPart1.data, (promptPart2 ++ error_block error ++ promptPart3).data, ?_⟩
  show promptPart1.data ++ (String.intercalate "," items).data ++
      (promptPart2 ++ error_block error ++ promptPart3).data = (build_prompt items error).data
  simp [build_prompt]

/-- C9 counterexample: a run that ends SOLVED with four confirmed groups
produces the solved report, which carries only the unused error allowance and
none of the confirmed groups. -/
theorem solved_report_omits_groups :
    finalReport (states caEx oSolve 1) = Report.solved 4 ∧
    (states caEx oSolve 1).correct_sets ≠ [] ∧
    Report.reportedGroups (finalReport (states caEx oSolve 1)) = [] := by decide

/-- C9 amended: on SOLVED termination (`remaining_words` empty) the program
reports the unused error allowance `4 - len(errors)` and nothing else: the
confirmed groups are reported only by the failure branch. -/
theorem solved_report_allowance_only (s : PState) (h : s.remaining_words = ∅) :
    finalReport s = Report.solved (4 - s.errors.length) ∧
    Report.reportedGroups (finalReport s) = [] := by
  simp [finalReport, h, Report.reportedGroups]

/-- C9 amended witness: the solved run of the concrete puzzle reports 4 unused
guesses and no groups. -/
theorem solved_report_allowance_only_witness :
    (states caEx oSolve 1).remaining_words = ∅ ∧
    (finalReport (states caEx oSolve 1) =
        Report.solved (4 - (states caEx oSolve 1).errors.length) ∧
      Report.reportedGroups (finalReport (states caEx oSolve 1)) = []) :=
  ⟨by decide, solved_report_allowance_only (states caEx oSolve 1) (by decide)⟩

/-- C10: at every loop-head state of every run, `remaining_words` is exactly
the full item universe minus the union of the sets in `correct_sets`. -/
theorem remaining_eq_universe_minus_confirmed (ca : List (List Item))
    (oracle : Nat → ConnectionsGuesses) (k : Nat) :
    (states ca oracle k).remaining_words =
      all_words ca \ union_list (states ca oracle k).correct_sets := by
  induction k with
  | zero =>
    show all_words ca = all_words ca \ union_list []
    simp [union_list]
  | succ n ih =>
    simp only [states]
    by_cases h : loopCond (states ca oracle n)
    · rw [if_pos h]
      exact processGroups_invariant _ _ _ _ ih
    · rw [if_neg h]
      exact ih
